import Mathlib

/-!
Build-output path resolver of newt (`newt/builder/paths.go`).

A shallow embedding of the functions and `Builder` methods of `paths.go` and a
verification of the properties stated about them.

Modelling conventions.

* A Go `string` is a Lean `String`.  The only patterns the code searches for
  are the one-byte ASCII strings `"@"`, `" "`, `"\t"`, `"\n"` and `"/"`; in
  UTF-8 such a byte never occurs inside the encoding of another character, so
  replacing them byte by byte and character by character is the same thing.
* `project.GetProject().Path()`, `util.FilenameFromPath`, `TestTargetName`
  and the constant `pkg.PACKAGE_TYPE_GENERATED` live outside `paths.go`; they
  are the fields of an environment `Env` every function takes, so that what
  is proved holds for whatever they are.
* `strings.Replace`, `filepath.Base`, `filepath.Clean` and `filepath.Dir` are
  the Go standard library's (the `filepath` functions on a Unix system:
  separator `/`, no volume names).
* The types `Builder` and `BuildPackage` are declared outside `paths.go`; a
  method that dereferences a package pointer returns an `Option`, `none`
  standing for the panic on a nil pointer.
-/

namespace Paths

/-! ## Go standard library -/

/-- Scan of `strings.Replace(s, old, new, -1)` for a non-empty `old`: at each
position, if `old` starts there it is replaced by `new` and the scan resumes
after it, otherwise the character is kept.  The first argument bounds the
number of steps; the length of the string is always enough. -/
def replaceFrom (old new : List Char) : Nat → List Char → List Char
  | 0, s => s
  | _ + 1, [] => []
  | fuel + 1, c :: cs =>
    if old.isPrefixOf (c :: cs) then
      new ++ replaceFrom old new fuel ((c :: cs).drop old.length)
    else
      c :: replaceFrom old new fuel cs

/-- Go's `strings.Replace(s, old, new, -1)`: every non-overlapping occurrence
of `old` in `s` is replaced by `new`.  As in Go, nothing happens when
`old == new`, and an empty `old` matches before every character and at the
end of the string. -/
def stringsReplaceAll (s old new : String) : String :=
  if old = new then s
  else if old.data = [] then ⟨new.data ++ s.data.flatMap (fun c => c :: new.data)⟩
  else ⟨replaceFrom old.data new.data s.data.length s.data⟩

/-- The loop of `filepath.Base` that strips trailing slashes. -/
def stripTrailingSlashes (p : List Char) : List Char :=
  (p.reverse.dropWhile (fun c => c == '/')).reverse

/-- The part of a path after its last slash (all of it when it has none). -/
def afterLastSlash (p : List Char) : List Char :=
  (p.reverse.takeWhile (fun c => c != '/')).reverse

/-- Go's `filepath.Base` on Unix: the last element of the path, trailing
slashes removed first; `"."` for the empty path and `"/"` for a path of
slashes only. -/
def filepathBase (path : String) : String :=
  if path = "" then "."
  else
    let p := afterLastSlash (stripTrailingSlashes path.data)
    if p = [] then "/" else ⟨p⟩

/-- The test `r == n || os.IsPathSeparator(path[r])` of `filepath.Clean`: the
path element being read ends here. -/
def elemEnds : List Char → Bool
  | [] => true
  | c :: _ => c == '/'

/-- Backtracking of `filepath.Clean` on a `..` element, on the reversed
buffer: `out.w--`, then `out.w--` again as long as `out.w > dotdot` and the
character at `out.w` is not a separator. -/
def backtrackRev (dotdot : Nat) : List Char → List Char
  | [] => []
  | c :: rest =>
    if rest.length > dotdot ∧ c ≠ '/' then backtrackRev dotdot rest else rest

/-- Backtracking of `filepath.Clean` on a `..` element: the buffer after it. -/
def backtrack (out : List Char) (dotdot : Nat) : List Char :=
  (backtrackRev dotdot out.reverse).reverse

/-- The main loop of `filepath.Clean` (Unix): `rest` is the part of the path
still to read, `out` the buffer written so far (`out.w` is its length) and
`dotdot` the index where `..` must stop.  The first number bounds the number
of iterations; each one reads at least one character, so the length of `rest`
is enough. -/
def cleanLoop (rooted : Bool) : Nat → List Char → List Char → Nat → List Char
  | 0, _, out, _ => out
  | _ + 1, [], out, _ => out
  | fuel + 1, c :: r, out, dotdot =>
    if c = '/' then
      cleanLoop rooted fuel r out dotdot
    else if c = '.' ∧ elemEnds r = true then
      cleanLoop rooted fuel r out dotdot
    else if c = '.' ∧ r.head? = some '.' ∧ elemEnds r.tail = true then
      if out.length > dotdot then
        cleanLoop rooted fuel r.tail (backtrack out dotdot) dotdot
      else if rooted = false then
        let out1 := (if out.length > 0 then out ++ ['/'] else out) ++ ['.', '.']
        cleanLoop rooted fuel r.tail out1 out1.length
      else
        cleanLoop rooted fuel r.tail out dotdot
    else
      let out1 :=
        if (rooted = true ∧ out.length ≠ 1) ∨ (rooted = false ∧ out.length ≠ 0) then
          out ++ ['/']
        else out
      cleanLoop rooted fuel ((c :: r).dropWhile (fun d => d != '/'))
        (out1 ++ (c :: r).takeWhile (fun d => d != '/')) dotdot

/-- Go's `filepath.Clean` on Unix (no volume names): the shortest equivalent
path, `"."` for the empty one. -/
def filepathClean (path : String) : String :=
  if path = "" then "."
  else
    let out :=
      if path.data.head? = some '/' then
        cleanLoop true path.data.length path.data.tail ['/'] 1
      else
        cleanLoop false path.data.length path.data [] 0
    if out.length = 0 then "." else ⟨out⟩

/-- The path up to and including its last slash, `path[:i+1]` in
`filepath.Dir` (empty when the path has no slash). -/
def uptoLastSlash (p : List Char) : List Char :=
  (p.reverse.dropWhile (fun c => c != '/')).reverse

/-- Go's `filepath.Dir` on Unix: all but the last element of the path,
cleaned. -/
def filepathDir (path : String) : String :=
  filepathClean ⟨uptoLastSlash path.data⟩

/-! ## Environment -/

/-- Go's `interfaces.PackageType`, an integer type. -/
abbrev PackageType := Int

/-- What `paths.go` takes from the rest of the program. -/
structure Env where
  /-- The value of `project.GetProject().Path()`. -/
  projectPath : String
  /-- The function `util.FilenameFromPath`. -/
  FilenameFromPath : String → String
  /-- The function `TestTargetName`. -/
  TestTargetName : String → String
  /-- The constant `pkg.PACKAGE_TYPE_GENERATED`. -/
  PACKAGE_TYPE_GENERATED : PackageType

/-- Modelled from the spec: `util.FilenameFromPath` is not part of `paths.go`.
The spec calls it `lastSegment`, a primitive that "reduces any hierarchical
identifier to its final segment", with `boards/nrf52` reduced to `nrf52`: the
text after the last slash. -/
def lastSegment (s : String) : String :=
  ⟨afterLastSlash s.data⟩

/-! ## `paths.go` -/

def BUILD_NAME_APP : String := "app"

def BUILD_NAME_LOADER : String := "loader"

/-- Removes odd characters from paths. -/
def fixPath (s : String) : String :=
  let s := stringsReplaceAll s "@" ""
  let s := stringsReplaceAll s " " "_"
  let s := stringsReplaceAll s "\t" "_"
  let s := stringsReplaceAll s "\n" "_"
  s

def BinRoot (env : Env) : String :=
  env.projectPath ++ "/bin"

def TargetBinDir (env : Env) (targetName : String) : String :=
  let targetName := env.FilenameFromPath targetName
  BinRoot env ++ "/" ++ targetName

def GeneratedBaseDir (env : Env) (targetName : String) : String :=
  let targetName := env.FilenameFromPath targetName
  fixPath (BinRoot env ++ "/" ++ targetName ++ "/generated")

def GeneratedSrcDir (env : Env) (targetName : String) : String :=
  GeneratedBaseDir env targetName ++ "/src"

def GeneratedIncludeDir (env : Env) (targetName : String) : String :=
  GeneratedBaseDir env targetName ++ "/include"

def GeneratedBinDir (env : Env) (targetName : String) : String :=
  GeneratedBaseDir env targetName ++ "/bin"

def SysinitArchivePath (env : Env) (targetName : String) : String :=
  GeneratedBinDir env targetName ++ "/sysinit.a"

def BinDir (env : Env) (targetName buildName : String) : String :=
  fixPath (BinRoot env ++ "/" ++ targetName ++ "/" ++ buildName)

def FileBinDir (env : Env) (targetName buildName pkgName : String) : String :=
  fixPath (BinDir env targetName buildName ++ "/" ++ pkgName)

def PkgBinDir (env : Env) (targetName buildName pkgName : String)
    (pkgType : PackageType) : String :=
  if pkgType = env.PACKAGE_TYPE_GENERATED then
    GeneratedBinDir env targetName
  else
    FileBinDir env targetName buildName pkgName

def ArchivePath (env : Env) (targetName buildName pkgName : String)
    (pkgType : PackageType) : String :=
  let filename := env.FilenameFromPath pkgName ++ ".a"
  fixPath (PkgBinDir env targetName buildName pkgName pkgType ++ "/" ++ filename)

def AppElfPath (env : Env) (targetName buildName appName : String) : String :=
  fixPath (FileBinDir env targetName buildName appName ++ "/" ++
    filepathBase appName ++ ".elf")

def AppBinPath (env : Env) (targetName buildName appName : String) : String :=
  AppElfPath env targetName buildName appName ++ ".bin"

def TestExePath (env : Env) (targetName buildName pkgName : String)
    (pkgType : PackageType) : String :=
  fixPath (PkgBinDir env targetName buildName pkgName pkgType ++ "/" ++
    env.TestTargetName pkgName ++ ".elf")

def ManifestPath (env : Env) (targetName buildName pkgName : String) : String :=
  FileBinDir env targetName buildName pkgName ++ "/manifest.json"

def AppImgPath (env : Env) (targetName buildName appName : String) : String :=
  fixPath (FileBinDir env targetName buildName appName ++ "/" ++
    filepathBase appName ++ ".img")

def MfgBinDir (env : Env) (mfgPkgName : String) : String :=
  fixPath (BinRoot env ++ "/" ++ mfgPkgName)

def MfgBootDir (env : Env) (mfgPkgName : String) : String :=
  MfgBinDir env mfgPkgName ++ "/bootloader"

/-! ## The methods of `Builder` -/

/-- Modelled from the spec: the type `BuildPackage` is declared outside
`paths.go`.  Of a package the path accessors read its "canonical full name
and its kind", the values of `rpkg.Lpkg.FullName()` and `rpkg.Lpkg.Type()`. -/
structure BuildPackage where
  FullName : String
  PkgType : PackageType
  deriving DecidableEq

/-- Modelled from the spec: the type `Builder` is declared outside `paths.go`.
A build context is "TargetName + BuildVariant + optional bound app package +
optional bound test package"; an unbound package is a nil pointer, `none`
here. -/
structure Builder where
  targetPkg : BuildPackage
  buildName : String
  appPkg : Option BuildPackage
  testPkg : Option BuildPackage

/-- Method `BinDir` of `Builder`. -/
def Builder.BinDir (env : Env) (b : Builder) : String :=
  Paths.BinDir env b.targetPkg.FullName b.buildName

/-- Method `FileBinDir` of `Builder`. -/
def Builder.FileBinDir (env : Env) (b : Builder) (pkgName : String) : String :=
  Paths.FileBinDir env b.targetPkg.FullName b.buildName pkgName

/-- Method `PkgBinDir` of `Builder`; `none` is the panic on a nil package. -/
def Builder.PkgBinDir (env : Env) (b : Builder) (bpkg : Option BuildPackage) :
    Option String :=
  match bpkg with
  | none => none
  | some pkg =>
    some (Paths.PkgBinDir env b.targetPkg.FullName b.buildName pkg.FullName pkg.PkgType)

/-- Method `ArchivePath` of `Builder`; `none` is the panic on a nil package. -/
def Builder.ArchivePath (env : Env) (b : Builder) (bpkg : Option BuildPackage) :
    Option String :=
  match bpkg with
  | none => none
  | some pkg =>
    some (Paths.ArchivePath env b.targetPkg.FullName b.buildName pkg.FullName pkg.PkgType)

/-- Method `AppElfPath` of `Builder`; `none` is the panic on a nil `appPkg`. -/
def Builder.AppElfPath (env : Env) (b : Builder) : Option String :=
  match b.appPkg with
  | none => none
  | some app => some (Paths.AppElfPath env b.targetPkg.FullName b.buildName app.FullName)

/-- Method `AppImgPath` of `Builder`; `none` is the panic on a nil `appPkg`. -/
def Builder.AppImgPath (env : Env) (b : Builder) : Option String :=
  match Builder.PkgBinDir env b b.appPkg, b.appPkg with
  | some dir, some app => some (dir ++ "/" ++ filepathBase app.FullName ++ ".img")
  | _, _ => none

/-- Method `AppBinPath` of `Builder`; `none` is the panic on a nil `appPkg`. -/
def Builder.AppBinPath (env : Env) (b : Builder) : Option String :=
  match Builder.AppElfPath env b with
  | none => none
  | some elf => some (elf ++ ".bin")

/-- Method `TestExePath` of `Builder`; `none` is the panic on a nil
`testPkg`. -/
def Builder.TestExePath (env : Env) (b : Builder) : Option String :=
  match b.testPkg with
  | none => none
  | some test =>
    some (Paths.TestExePath env b.targetPkg.FullName b.buildName test.FullName test.PkgType)

/-- Method `ManifestPath` of `Builder`; `none` is the panic on a nil
`appPkg`. -/
def Builder.ManifestPath (env : Env) (b : Builder) : Option String :=
  match b.appPkg with
  | none => none
  | some app => some (Paths.ManifestPath env b.targetPkg.FullName b.buildName app.FullName)

/-- Method `CompileCmdsPath` of `Builder`: the path depends on whether an app
is built or a test is run; `none` is a panic on a nil package. -/
def Builder.CompileCmdsPath (env : Env) (b : Builder) : Option String :=
  let basePath :=
    if b.appPkg ≠ none then
      (Builder.AppElfPath env b).map filepathDir
    else
      (Builder.TestExePath env b).map filepathDir
  basePath.map (fun basePath => basePath ++ "/compile_commands.json")

/-! ## Vocabulary of the properties -/

/-- The sanitizer as the spec words it, on a list of characters: delete every
`@`, then turn each space, tab and newline into `_`, keeping every other
character and the order. -/
def sanitizeChars (l : List Char) : List Char :=
  (l.filter (fun c => c != '@')).map
    (fun c => if c = ' ' ∨ c = '\t' ∨ c = '\n' then '_' else c)

/-- The sanitizer as the spec words it, on strings. -/
def sanitizeSpec (s : String) : String :=
  ⟨sanitizeChars s.data⟩

/-- A character the sanitizer leaves alone. -/
def safeChar (c : Char) : Prop :=
  c ≠ '@' ∧ c ≠ ' ' ∧ c ≠ '\t' ∧ c ≠ '\n'

instance (c : Char) : Decidable (safeChar c) := by
  unfold safeChar; infer_instance

/-- A string containing none of `@`, space, tab, newline. -/
def IsClean (s : String) : Prop :=
  ∀ c ∈ s.data, safeChar c

instance (s : String) : Decidable (IsClean s) := by
  unfold IsClean; infer_instance

/-- The string `s` starts with `pre`. -/
def startsWith (s pre : String) : Prop :=
  pre.data <+: s.data

instance (s pre : String) : Decidable (startsWith s pre) := by
  unfold startsWith; infer_instance

/-- The string `sub` occurs in `s` as a run of consecutive characters. -/
def containsSubstr (s sub : String) : Prop :=
  sub.data <:+: s.data

instance (s sub : String) : Decidable (containsSubstr s sub) := by
  unfold containsSubstr; infer_instance

/-- A concrete environment for evaluating the functions on examples: project
root `/proj`, `lastSegment` for `util.FilenameFromPath`.  The tag value and
the test-stem function are placeholders (`paths.go` fixes neither); the
general theorems hold for every environment. -/
def projEnv : Env where
  projectPath := "/proj"
  FilenameFromPath := lastSegment
  TestTargetName := lastSegment
  PACKAGE_TYPE_GENERATED := 5

/-- The environment `projEnv` with another project root. -/
def envAt (root : String) : Env :=
  { projEnv with projectPath := root }

/-- The target package of the examples, `boards/nrf52`, of kind 0. -/
def nrf52Target : BuildPackage :=
  { FullName := "boards/nrf52", PkgType := 0 }

/-- A build context with the app `apps/blinky` bound and no test package. -/
def blinkyBuilder : Builder :=
  { targetPkg := nrf52Target, buildName := "app",
    appPkg := some { FullName := "apps/blinky", PkgType := 0 }, testPkg := none }

/-- A build context with the app `my pkg` bound and no test package. -/
def myPkgBuilder : Builder :=
  { targetPkg := nrf52Target, buildName := "app",
    appPkg := some { FullName := "my pkg", PkgType := 0 }, testPkg := none }

/-- A build context with only the test package `libs/util` bound. -/
def testBuilder : Builder :=
  { targetPkg := nrf52Target, buildName := "test",
    appPkg := none, testPkg := some { FullName := "libs/util", PkgType := 0 } }

/-! ## The sanitizer -/

theorem replaceFrom_single (a : Char) (new : List Char) :
    ∀ (fuel : Nat) (s : List Char), s.length ≤ fuel →
      replaceFrom [a] new fuel s = s.flatMap (fun c => if c = a then new else [c]) := by
  intro fuel
  induction fuel with
  | zero =>
    intro s hs
    have : s = [] := List.length_eq_zero.mp (Nat.le_zero.mp hs)
    subst this
    rfl
  | succ n ih =>
    intro s hs
    cases s with
    | nil => rfl
    | cons c cs =>
      have hcs : cs.length ≤ n := by simpa using hs
      by_cases hca : c = a
      · subst hca
        simp [replaceFrom, List.isPrefixOf, ih cs hcs]
      · have hac : ¬ a = c := fun h => hca h.symm
        simp [replaceFrom, List.isPrefixOf, ih cs hcs, hca, hac]

theorem stringsReplaceAll_single (s : String) (a : Char) (new : String)
    (h : String.mk [a] ≠ new) :
    (stringsReplaceAll s ⟨[a]⟩ new).data =
      s.data.flatMap (fun c => if c = a then new.data else [c]) := by
  unfold stringsReplaceAll
  rw [if_neg h, if_neg (by simp)]
  exact replaceFrom_single a new.data _ _ (le_refl _)

theorem sanitizeChars_nil : sanitizeChars [] = [] := rfl

theorem sanitizeChars_append (l₁ l₂ : List Char) :
    sanitizeChars (l₁ ++ l₂) = sanitizeChars l₁ ++ sanitizeChars l₂ := by
  simp [sanitizeChars, List.filter_append, List.map_append]

theorem sanitizeChars_cons (c : Char) (l : List Char) :
    sanitizeChars (c :: l) = sanitizeChars [c] ++ sanitizeChars l := by
  rw [← sanitizeChars_append]; rfl

/-- The four passes of `fixPath`, on one character. -/
theorem fourPasses_single (c : Char) :
    ((([c].flatMap (fun c => if c = '@' then [] else [c])).flatMap
        (fun c => if c = ' ' then ['_'] else [c])).flatMap
        (fun c => if c = '\t' then ['_'] else [c])).flatMap
        (fun c => if c = '\n' then ['_'] else [c]) = sanitizeChars [c] := by
  by_cases h1 : c = '@'
  · subst h1; decide
  by_cases h2 : c = ' '
  · subst h2; decide
  by_cases h3 : c = '\t'
  · subst h3; decide
  by_cases h4 : c = '\n'
  · subst h4; decide
  simp [sanitizeChars, h1, h2, h3, h4]

theorem fourPasses (l : List Char) :
    (((l.flatMap (fun c => if c = '@' then [] else [c])).flatMap
        (fun c => if c = ' ' then ['_'] else [c])).flatMap
        (fun c => if c = '\t' then ['_'] else [c])).flatMap
        (fun c => if c = '\n' then ['_'] else [c]) = sanitizeChars l := by
  induction l with
  | nil => rfl
  | cons c cs ih =>
    rw [sanitizeChars_cons, ← ih, ← fourPasses_single c]
    simp only [List.flatMap_cons, List.flatMap_nil, List.flatMap_append, List.append_nil]

theorem fixPath_data (s : String) : (fixPath s).data = sanitizeChars s.data := by
  unfold fixPath
  simp only []
  rw [show ("\n" : String) = ⟨['\n']⟩ from rfl, show ("\t" : String) = ⟨['\t']⟩ from rfl,
    show (" " : String) = ⟨[' ']⟩ from rfl, show ("@" : String) = ⟨['@']⟩ from rfl]
  rw [stringsReplaceAll_single _ '\n' "_" (by decide),
    stringsReplaceAll_single _ '\t' "_" (by decide),
    stringsReplaceAll_single _ ' ' "_" (by decide),
    stringsReplaceAll_single _ '@' "" (by decide)]
  exact fourPasses s.data

theorem fixPath_append (a b : String) : fixPath (a ++ b) = fixPath a ++ fixPath b := by
  apply String.ext
  simp only [fixPath_data, String.data_append, sanitizeChars_append]

theorem safeChar_of_mem_sanitizeChars (l : List Char) :
    ∀ c ∈ sanitizeChars l, safeChar c := by
  intro c hc
  simp only [sanitizeChars, List.mem_map, List.mem_filter] at hc
  obtain ⟨d, ⟨_, hd⟩, rfl⟩ := hc
  have hd' : d ≠ '@' := by simpa using hd
  by_cases h : d = ' ' ∨ d = '\t' ∨ d = '\n'
  · rw [if_pos h]; decide
  · rw [if_neg h]
    simp only [not_or] at h
    exact ⟨hd', h.1, h.2.1, h.2.2⟩

theorem sanitizeChars_of_safe (l : List Char) (h : ∀ c ∈ l, safeChar c) :
    sanitizeChars l = l := by
  induction l with
  | nil => rfl
  | cons c cs ih =>
    have hc : safeChar c := h c (List.mem_cons_self _ _)
    have hcs : ∀ d ∈ cs, safeChar d := fun d hd => h d (List.mem_cons_of_mem _ hd)
    rw [sanitizeChars_cons, ih hcs]
    obtain ⟨h1, h2, h3, h4⟩ := hc
    simp [sanitizeChars, h1, h2, h3, h4]

theorem isClean_fixPath (s : String) : IsClean (fixPath s) := by
  intro c hc
  rw [fixPath_data] at hc
  exact safeChar_of_mem_sanitizeChars _ c hc

theorem fixPath_of_isClean (s : String) (h : IsClean s) : fixPath s = s := by
  apply String.ext
  rw [fixPath_data]
  exact sanitizeChars_of_safe _ h

theorem fixPath_fixPath (s : String) : fixPath (fixPath s) = fixPath s :=
  fixPath_of_isClean _ (isClean_fixPath s)

theorem isClean_append (a b : String) (ha : IsClean a) (hb : IsClean b) :
    IsClean (a ++ b) := by
  intro c hc
  rw [String.data_append, List.mem_append] at hc
  cases hc with
  | inl h => exact ha c h
  | inr h => exact hb c h

theorem isClean_of_fixPath_eq (s : String) (h : fixPath s = s) : IsClean s := by
  rw [← h]; exact isClean_fixPath s

/-! ## Claims about the sanitizer -/

/-- C1: for every string, `fixPath` returns the string with every `@` deleted
and every space, tab and newline replaced by `_`, all other characters kept
unchanged and in the same order. -/
theorem fixPath_eq_sanitizeSpec (s : String) : fixPath s = sanitizeSpec s :=
  String.ext (fixPath_data s)

/-- C2: the sanitizer is idempotent, `fixPath (fixPath s) = fixPath s` for
every string. -/
theorem fixPath_idempotent (s : String) : fixPath (fixPath s) = fixPath s :=
  fixPath_of_isClean _ (isClean_fixPath s)

/-! ## Normal forms of the paths -/

theorem fixPath_slash : fixPath "/" = "/" := by decide

theorem fixPath_bin : fixPath "/bin" = "/bin" := by decide

theorem fixPath_generated : fixPath "/generated" = "/generated" := by decide

theorem fixPath_dot_a : fixPath ".a" = ".a" := by decide

theorem fixPath_dot_elf : fixPath ".elf" = ".elf" := by decide

theorem fixPath_dot_img : fixPath ".img" = ".img" := by decide

theorem fixPath_dot_bin : fixPath ".bin" = ".bin" := by decide

theorem BinDir_eq (env : Env) (t v : String) :
    BinDir env t v =
      fixPath env.projectPath ++ "/bin" ++ "/" ++ fixPath t ++ "/" ++ fixPath v := by
  simp only [BinDir, BinRoot, fixPath_append, fixPath_slash, fixPath_bin]

theorem FileBinDir_eq (env : Env) (t v p : String) :
    FileBinDir env t v p = BinDir env t v ++ "/" ++ fixPath p := by
  simp only [FileBinDir, BinDir, fixPath_append, fixPath_fixPath, fixPath_slash]

theorem GeneratedBaseDir_eq (env : Env) (t : String) :
    GeneratedBaseDir env t =
      fixPath env.projectPath ++ "/bin" ++ "/" ++ fixPath (env.FilenameFromPath t) ++
        "/generated" := by
  simp only [GeneratedBaseDir, BinRoot, fixPath_append, fixPath_slash, fixPath_bin,
    fixPath_generated]

theorem isClean_BinDir (env : Env) (t v : String) : IsClean (BinDir env t v) :=
  isClean_fixPath _

theorem isClean_FileBinDir (env : Env) (t v p : String) : IsClean (FileBinDir env t v p) :=
  isClean_fixPath _

theorem isClean_GeneratedBinDir (env : Env) (t : String) : IsClean (GeneratedBinDir env t) :=
  isClean_append _ _ (isClean_fixPath _) (by decide)

theorem isClean_PkgBinDir (env : Env) (t v p : String) (k : PackageType) :
    IsClean (PkgBinDir env t v p k) := by
  unfold PkgBinDir
  split
  · exact isClean_GeneratedBinDir env t
  · exact isClean_FileBinDir env t v p

theorem PkgBinDir_generated (env : Env) (t v p : String) :
    PkgBinDir env t v p env.PACKAGE_TYPE_GENERATED = GeneratedBinDir env t := by
  simp [PkgBinDir]

theorem PkgBinDir_ordinary (env : Env) (t v p : String) (k : PackageType)
    (hk : k ≠ env.PACKAGE_TYPE_GENERATED) :
    PkgBinDir env t v p k = FileBinDir env t v p := by
  simp [PkgBinDir, hk]

/-! ## Prefixes -/

theorem startsWith_refl (s : String) : startsWith s s :=
  List.prefix_refl _

theorem startsWith_append (s pre x : String) (h : startsWith s pre) :
    startsWith (s ++ x) pre := by
  unfold startsWith at *
  rw [String.data_append]
  exact h.trans (List.prefix_append _ _)

theorem startsWith_fixPath (s pre : String) (hpre : IsClean pre) (h : startsWith s pre) :
    startsWith (fixPath s) pre := by
  unfold startsWith at *
  obtain ⟨r, hr⟩ := h
  rw [fixPath_data, ← hr, sanitizeChars_append, sanitizeChars_of_safe _ hpre]
  exact List.prefix_append _ _

theorem isClean_BinRoot (env : Env) (h : IsClean env.projectPath) : IsClean (BinRoot env) :=
  isClean_append _ _ h (by decide)

theorem startsWith_BinDir (env : Env) (t v : String) (h : IsClean env.projectPath) :
    startsWith (BinDir env t v) (BinRoot env) :=
  startsWith_fixPath _ _ (isClean_BinRoot env h)
    (startsWith_append _ _ _ (startsWith_append _ _ _ (startsWith_append _ _ _
      (startsWith_append _ _ _ (startsWith_refl _)))))

theorem startsWith_FileBinDir (env : Env) (t v p : String) (h : IsClean env.projectPath) :
    startsWith (FileBinDir env t v p) (BinRoot env) :=
  startsWith_fixPath _ _ (isClean_BinRoot env h)
    (startsWith_append _ _ _ (startsWith_append _ _ _ (startsWith_BinDir env t v h)))

theorem startsWith_GeneratedBinDir (env : Env) (t : String) (h : IsClean env.projectPath) :
    startsWith (GeneratedBinDir env t) (BinRoot env) :=
  startsWith_append _ _ _ (startsWith_fixPath _ _ (isClean_BinRoot env h)
    (startsWith_append _ _ _ (startsWith_append _ _ _ (startsWith_append _ _ _
      (startsWith_refl _)))))

theorem startsWith_PkgBinDir (env : Env) (t v p : String) (k : PackageType)
    (h : IsClean env.projectPath) :
    startsWith (PkgBinDir env t v p k) (BinRoot env) := by
  unfold PkgBinDir
  split
  · exact startsWith_GeneratedBinDir env t h
  · exact startsWith_FileBinDir env t v p h

theorem not_containsSubstr_of_isClean (s sub : String) (c : Char) (hs : IsClean s)
    (hc : c ∈ sub.data) (hbad : ¬ safeChar c) : ¬ containsSubstr s sub := by
  intro h
  exact hbad (hs c (h.subset hc))

theorem append_right_inj (a x y : String) : a ++ x = a ++ y ↔ x = y := by
  constructor
  · intro h
    apply String.ext
    have h' := congrArg String.data h
    rw [String.data_append, String.data_append] at h'
    exact List.append_cancel_left h'
  · intro h; rw [h]

/-! ## Claims about the resolver -/

/-- C3: generated collapse.  For every environment, target and variant, any
two package names of the generated kind get the same `PkgBinDir`, and it is
`GeneratedBinDir` of the target. -/
theorem generated_collapse (env : Env) (t v p1 p2 : String) :
    PkgBinDir env t v p1 env.PACKAGE_TYPE_GENERATED =
        PkgBinDir env t v p2 env.PACKAGE_TYPE_GENERATED ∧
      PkgBinDir env t v p1 env.PACKAGE_TYPE_GENERATED = GeneratedBinDir env t ∧
      PkgBinDir env t v p2 env.PACKAGE_TYPE_GENERATED = GeneratedBinDir env t := by
  simp [PkgBinDir]

/-- C4, as stated, fails: with root `/proj`, target `boards/nrf52` and variant
`app`, `BinDir` is not the sanitized `BinRoot/lastSegment(target)/variant`,
`FileBinDir` of `apps/blinky` is not `/proj/bin/nrf52/app/apps/blinky` and
`AppElfPath` is not `/proj/bin/nrf52/app/apps/blinky/blinky.elf`. -/
theorem BinDir_lastSegment_counterexample :
    BinDir projEnv "boards/nrf52" "app" ≠
        fixPath (BinRoot projEnv ++ "/" ++ lastSegment "boards/nrf52" ++ "/" ++ "app") ∧
      FileBinDir projEnv "boards/nrf52" "app" "apps/blinky" ≠
        "/proj/bin/nrf52/app/apps/blinky" ∧
      AppElfPath projEnv "boards/nrf52" "app" "apps/blinky" ≠
        "/proj/bin/nrf52/app/apps/blinky/blinky.elf" := by
  decide

/-- C4, amended: `BinDir` sanitizes `BinRoot/target/variant` with the target
name used whole, its hierarchical prefix kept; with root `/proj`, target
`boards/nrf52`, variant `app` and package `apps/blinky`, `FileBinDir` is
`/proj/bin/boards/nrf52/app/apps/blinky` and `AppElfPath` is
`/proj/bin/boards/nrf52/app/apps/blinky/blinky.elf`. -/
theorem BinDir_whole_target :
    (∀ (env : Env) (t v : String),
        BinDir env t v = fixPath (BinRoot env ++ "/" ++ t ++ "/" ++ v)) ∧
      FileBinDir projEnv "boards/nrf52" "app" "apps/blinky" =
        "/proj/bin/boards/nrf52/app/apps/blinky" ∧
      AppElfPath projEnv "boards/nrf52" "app" "apps/blinky" =
        "/proj/bin/boards/nrf52/app/apps/blinky/blinky.elf" := by
  refine ⟨fun _ _ _ => rfl, by decide, by decide⟩

/-- C5, as stated, fails: with the project root `/my proj`, `BinDir` of target
`nrf52` and variant `app` does not start with `/my proj/bin` (it is
`/my_proj/bin/nrf52/app`). -/
theorem rootedness_counterexample :
    ¬ startsWith (BinDir (envAt "/my proj") "nrf52" "app")
        ((envAt "/my proj").projectPath ++ "/bin") ∧
      BinDir (envAt "/my proj") "nrf52" "app" = "/my_proj/bin/nrf52/app" := by
  decide

/-- C5, amended: when the project root contains none of `@`, space, tab,
newline, every path of the target/variant family starts with
`root ++ "/bin"`, for every target, variant, package name and kind. -/
theorem rootedness (env : Env) (t v p : String) (k : PackageType)
    (hroot : IsClean env.projectPath) :
    startsWith (BinDir env t v) (env.projectPath ++ "/bin") ∧
      startsWith (FileBinDir env t v p) (env.projectPath ++ "/bin") ∧
      startsWith (PkgBinDir env t v p k) (env.projectPath ++ "/bin") ∧
      startsWith (ArchivePath env t v p k) (env.projectPath ++ "/bin") ∧
      startsWith (AppElfPath env t v p) (env.projectPath ++ "/bin") ∧
      startsWith (AppBinPath env t v p) (env.projectPath ++ "/bin") ∧
      startsWith (AppImgPath env t v p) (env.projectPath ++ "/bin") ∧
      startsWith (TestExePath env t v p k) (env.projectPath ++ "/bin") ∧
      startsWith (ManifestPath env t v p) (env.projectPath ++ "/bin") := by
  have hclean := isClean_BinRoot env hroot
  have hfile := startsWith_FileBinDir env t v p hroot
  have hpkg := startsWith_PkgBinDir env t v p k hroot
  have helf : startsWith (AppElfPath env t v p) (BinRoot env) :=
    startsWith_fixPath _ _ hclean
      (startsWith_append _ _ _ (startsWith_append _ _ _ (startsWith_append _ _ _ hfile)))
  refine ⟨startsWith_BinDir env t v hroot, hfile, hpkg, ?_, helf, ?_, ?_, ?_, ?_⟩
  · exact startsWith_fixPath _ _ hclean
      (startsWith_append _ _ _ (startsWith_append _ _ _ hpkg))
  · exact startsWith_append _ _ _ helf
  · exact startsWith_fixPath _ _ hclean
      (startsWith_append _ _ _ (startsWith_append _ _ _ (startsWith_append _ _ _ hfile)))
  · exact startsWith_fixPath _ _ hclean
      (startsWith_append _ _ _ (startsWith_append _ _ _ (startsWith_append _ _ _ hpkg)))
  · exact startsWith_append _ _ _ hfile

/-- Witness of C5 (amended) at root `/proj`, target `boards/nrf52`, variant
`app`, package `apps/blinky` of kind 0. -/
theorem rootedness_witness :
    IsClean projEnv.projectPath ∧
      (startsWith (BinDir projEnv "boards/nrf52" "app") (projEnv.projectPath ++ "/bin") ∧
      startsWith (FileBinDir projEnv "boards/nrf52" "app" "apps/blinky")
        (projEnv.projectPath ++ "/bin") ∧
      startsWith (PkgBinDir projEnv "boards/nrf52" "app" "apps/blinky" 0)
        (projEnv.projectPath ++ "/bin") ∧
      startsWith (ArchivePath projEnv "boards/nrf52" "app" "apps/blinky" 0)
        (projEnv.projectPath ++ "/bin") ∧
      startsWith (AppElfPath projEnv "boards/nrf52" "app" "apps/blinky")
        (projEnv.projectPath ++ "/bin") ∧
      startsWith (AppBinPath projEnv "boards/nrf52" "app" "apps/blinky")
        (projEnv.projectPath ++ "/bin") ∧
      startsWith (AppImgPath projEnv "boards/nrf52" "app" "apps/blinky")
        (projEnv.projectPath ++ "/bin") ∧
      startsWith (TestExePath projEnv "boards/nrf52" "app" "apps/blinky" 0)
        (projEnv.projectPath ++ "/bin") ∧
      startsWith (ManifestPath projEnv "boards/nrf52" "app" "apps/blinky")
        (projEnv.projectPath ++ "/bin")) :=
  ⟨by decide, rootedness projEnv "boards/nrf52" "app" "apps/blinky" 0 (by decide)⟩

/-- C6, as stated, fails: with root `/proj`, target `nrf52` and variant `app`,
`ManifestPath` of the app name `my pkg` does not contain the raw substring
`my pkg`; the space is replaced by `_`, as in `AppElfPath`. -/
theorem manifest_asymmetry_counterexample :
    ¬ containsSubstr (ManifestPath projEnv "nrf52" "app" "my pkg") "my pkg" ∧
      ManifestPath projEnv "nrf52" "app" "my pkg" =
        "/proj/bin/nrf52/app/my_pkg/manifest.json" ∧
      AppElfPath projEnv "nrf52" "app" "my pkg" =
        "/proj/bin/nrf52/app/my_pkg/my_pkg.elf" := by
  decide

/-- C6, amended: for the app name `my pkg` and any root, target and variant
free of `@`, space, tab and newline, `ManifestPath` is
`root/bin/target/variant/my_pkg/manifest.json`: it contains no space, hence
not the raw substring `my pkg`, and has `_` in place of the space exactly as
`AppElfPath`, which is `root/bin/target/variant/my_pkg/my_pkg.elf`. -/
theorem manifest_sanitized (env : Env) (t v : String)
    (hroot : IsClean env.projectPath) (ht : IsClean t) (hv : IsClean v) :
    ManifestPath env t v "my pkg" =
        env.projectPath ++ "/bin" ++ "/" ++ t ++ "/" ++ v ++ "/" ++ "my_pkg" ++
          "/manifest.json" ∧
      ¬ containsSubstr (ManifestPath env t v "my pkg") "my pkg" ∧
      ' ' ∉ (ManifestPath env t v "my pkg").data ∧
      AppElfPath env t v "my pkg" =
        env.projectPath ++ "/bin" ++ "/" ++ t ++ "/" ++ v ++ "/" ++ "my_pkg" ++ "/" ++
          "my_pkg" ++ ".elf" := by
  have hpkg : fixPath "my pkg" = "my_pkg" := by decide
  have hpkg' : fixPath "my_pkg" = "my_pkg" := by decide
  have hbase : filepathBase "my pkg" = "my pkg" := by decide
  have hclean : IsClean (ManifestPath env t v "my pkg") :=
    isClean_append _ _ (isClean_FileBinDir env t v _) (by decide)
  refine ⟨?_, ?_, ?_, ?_⟩
  · rw [ManifestPath, FileBinDir_eq, BinDir_eq, hpkg, fixPath_of_isClean _ hroot,
      fixPath_of_isClean _ ht, fixPath_of_isClean _ hv]
  · exact not_containsSubstr_of_isClean _ _ ' ' hclean (by decide) (by decide)
  · intro h
    exact absurd (hclean ' ' h) (by decide)
  · rw [AppElfPath, hbase, FileBinDir_eq, BinDir_eq]
    simp only [fixPath_append, fixPath_fixPath, fixPath_slash, fixPath_bin, fixPath_dot_elf,
      hpkg, hpkg', fixPath_of_isClean _ hroot, fixPath_of_isClean _ ht,
      fixPath_of_isClean _ hv]

/-- Witness of C6 (amended) at root `/proj`, target `nrf52`, variant `app`. -/
theorem manifest_sanitized_witness :
    (IsClean projEnv.projectPath ∧ IsClean "nrf52" ∧ IsClean "app") ∧
      (ManifestPath projEnv "nrf52" "app" "my pkg" =
        projEnv.projectPath ++ "/bin" ++ "/" ++ "nrf52" ++ "/" ++ "app" ++ "/" ++ "my_pkg" ++
          "/manifest.json" ∧
      ¬ containsSubstr (ManifestPath projEnv "nrf52" "app" "my pkg") "my pkg" ∧
      ' ' ∉ (ManifestPath projEnv "nrf52" "app" "my pkg").data ∧
      AppElfPath projEnv "nrf52" "app" "my pkg" =
        projEnv.projectPath ++ "/bin" ++ "/" ++ "nrf52" ++ "/" ++ "app" ++ "/" ++ "my_pkg" ++
          "/" ++ "my_pkg" ++ ".elf") :=
  ⟨by decide, manifest_sanitized projEnv "nrf52" "app" (by decide) (by decide) (by decide)⟩

/-- C7: for every environment, target, variant, package name and kind, the
results of `BinDir`, `ArchivePath` and `AppElfPath` contain none of `@`,
space, tab, newline; each is the sanitizer applied to the whole raw path, so
every space, tab or newline of the inputs shows as `_` and every `@` is
gone. -/
theorem sanitized_accessors (env : Env) (t v p : String) (k : PackageType) :
    IsClean (BinDir env t v) ∧ IsClean (ArchivePath env t v p k) ∧
      IsClean (AppElfPath env t v p) ∧
      BinDir env t v = sanitizeSpec (env.projectPath ++ "/bin" ++ "/" ++ t ++ "/" ++ v) ∧
      ArchivePath env t v p k =
        sanitizeSpec
          (if k = env.PACKAGE_TYPE_GENERATED then
            env.projectPath ++ "/bin" ++ "/" ++ env.FilenameFromPath t ++ "/generated" ++
              "/bin" ++ "/" ++ env.FilenameFromPath p ++ ".a"
          else
            env.projectPath ++ "/bin" ++ "/" ++ t ++ "/" ++ v ++ "/" ++ p ++ "/" ++
              env.FilenameFromPath p ++ ".a") ∧
      AppElfPath env t v p =
        sanitizeSpec (env.projectPath ++ "/bin" ++ "/" ++ t ++ "/" ++ v ++ "/" ++ p ++ "/" ++
          filepathBase p ++ ".elf") := by
  have hspec : ∀ s, sanitizeSpec s = fixPath s := fun s => (String.ext (fixPath_data s)).symm
  refine ⟨isClean_fixPath _, isClean_fixPath _, isClean_fixPath _, ?_, ?_, ?_⟩
  · rw [hspec]; rfl
  · rw [hspec]
    by_cases hk : k = env.PACKAGE_TYPE_GENERATED
    · subst hk
      rw [if_pos rfl, ArchivePath, PkgBinDir_generated, GeneratedBinDir, GeneratedBaseDir_eq]
      simp only [fixPath_append, fixPath_fixPath, fixPath_slash, fixPath_bin,
        fixPath_generated, fixPath_dot_a, String.append_assoc]
    · rw [if_neg hk, ArchivePath, PkgBinDir_ordinary _ _ _ _ _ hk, FileBinDir_eq, BinDir_eq]
      simp only [fixPath_append, fixPath_fixPath, fixPath_slash, fixPath_bin, fixPath_dot_a,
        String.append_assoc]
  · rw [hspec, AppElfPath, FileBinDir_eq, BinDir_eq]
    simp only [fixPath_append, fixPath_fixPath, fixPath_slash, fixPath_bin, fixPath_dot_elf]

/-- C8, as stated, fails: the distinct ordinary package names `my pkg` and
`my_pkg` get the same package output directory (root `/proj`, target `nrf52`,
variant `app`, kind 0, which is not the generated kind). -/
theorem PkgBinDir_collision :
    ("my pkg" : String) ≠ "my_pkg" ∧ (0 : PackageType) ≠ projEnv.PACKAGE_TYPE_GENERATED ∧
      PkgBinDir projEnv "nrf52" "app" "my pkg" 0 =
        PkgBinDir projEnv "nrf52" "app" "my_pkg" 0 := by
  decide

/-- C8, amended: for a fixed environment, target and variant and a kind other
than generated, two package names get distinct package output directories
exactly when their sanitized forms differ; in particular two distinct names
containing none of `@`, space, tab, newline do. -/
theorem PkgBinDir_distinct_iff (env : Env) (t v p1 p2 : String) (k : PackageType)
    (hk : k ≠ env.PACKAGE_TYPE_GENERATED) :
    (PkgBinDir env t v p1 k ≠ PkgBinDir env t v p2 k ↔ fixPath p1 ≠ fixPath p2) ∧
      (IsClean p1 → IsClean p2 → p1 ≠ p2 →
        PkgBinDir env t v p1 k ≠ PkgBinDir env t v p2 k) := by
  have key : PkgBinDir env t v p1 k = PkgBinDir env t v p2 k ↔ fixPath p1 = fixPath p2 := by
    rw [PkgBinDir_ordinary _ _ _ _ _ hk, PkgBinDir_ordinary _ _ _ _ _ hk, FileBinDir_eq,
      FileBinDir_eq, append_right_inj]
  refine ⟨not_congr key, ?_⟩
  intro h1 h2 hne heq
  apply hne
  have := key.mp heq
  rwa [fixPath_of_isClean _ h1, fixPath_of_isClean _ h2] at this

/-- Witness of C8 (amended): the packages `apps/blinky` and `apps/slinky` of
kind 0 under root `/proj`, target `nrf52`, variant `app`. -/
theorem PkgBinDir_distinct_iff_witness :
    (0 : PackageType) ≠ projEnv.PACKAGE_TYPE_GENERATED ∧
      IsClean "apps/blinky" ∧ IsClean "apps/slinky" ∧
      ("apps/blinky" : String) ≠ "apps/slinky" ∧
      fixPath "apps/blinky" ≠ fixPath "apps/slinky" ∧
      PkgBinDir projEnv "nrf52" "app" "apps/blinky" 0 ≠
        PkgBinDir projEnv "nrf52" "app" "apps/slinky" 0 :=
  ⟨by decide, by decide, by decide, by decide, by decide,
    (PkgBinDir_distinct_iff projEnv "nrf52" "app" "apps/blinky" "apps/slinky" 0
      (by decide)).2 (by decide) (by decide) (by decide)⟩

/-- C9: for every kind other than generated, and every environment, target,
variant and package name, `PkgBinDir` is `FileBinDir`, which is
`fixPath (BinDir ++ "/" ++ pkg)`; only the generated kind is redirected, to
`GeneratedBinDir`. -/
theorem PkgBinDir_ordinary_eq (env : Env) (t v p : String) (k : PackageType)
    (hk : k ≠ env.PACKAGE_TYPE_GENERATED) :
    PkgBinDir env t v p k = FileBinDir env t v p ∧
      FileBinDir env t v p = fixPath (BinDir env t v ++ "/" ++ p) ∧
      PkgBinDir env t v p env.PACKAGE_TYPE_GENERATED = GeneratedBinDir env t := by
  refine ⟨?_, rfl, ?_⟩
  · unfold PkgBinDir
    rw [if_neg hk]
  · unfold PkgBinDir
    rw [if_pos rfl]

/-- Witness of C9: the package `apps/blinky` of kind 0 under root `/proj`,
target `nrf52`, variant `app`. -/
theorem PkgBinDir_ordinary_eq_witness :
    (0 : PackageType) ≠ projEnv.PACKAGE_TYPE_GENERATED ∧
      (PkgBinDir projEnv "nrf52" "app" "apps/blinky" 0 =
          FileBinDir projEnv "nrf52" "app" "apps/blinky" ∧
        FileBinDir projEnv "nrf52" "app" "apps/blinky" =
          fixPath (BinDir projEnv "nrf52" "app" ++ "/" ++ "apps/blinky") ∧
        PkgBinDir projEnv "nrf52" "app" "apps/blinky" projEnv.PACKAGE_TYPE_GENERATED =
          GeneratedBinDir projEnv "nrf52") :=
  ⟨by decide, PkgBinDir_ordinary_eq projEnv "nrf52" "app" "apps/blinky" 0 (by decide)⟩

/-- C10: suffix consistency.  For every environment, target, variant and app
name, `AppBinPath` is `AppElfPath ++ ".bin"`, and it is a fixed point of the
sanitizer. -/
theorem AppBinPath_suffix (env : Env) (t v a : String) :
    AppBinPath env t v a = AppElfPath env t v a ++ ".bin" ∧
      fixPath (AppBinPath env t v a) = AppBinPath env t v a := by
  refine ⟨rfl, ?_⟩
  apply fixPath_of_isClean
  exact isClean_append _ _ (isClean_fixPath _) (by decide)

/-! ## `filepath.Clean` and `filepath.Dir` -/

theorem elemEnds_snoc (r : List Char) : elemEnds (r ++ ['/']) = elemEnds r := by
  cases r with
  | nil => decide
  | cons c r => rfl

theorem bne_slash_of_ne (c : Char) (hc : c ≠ '/') : (c != '/') = true := by
  simpa using hc

theorem dropWhile_cons_ne (c : Char) (l : List Char) (hc : c ≠ '/') :
    (c :: l).dropWhile (fun d => d != '/') = l.dropWhile (fun d => d != '/') := by
  rw [List.dropWhile_cons, if_pos (bne_slash_of_ne c hc)]

theorem takeWhile_cons_ne (c : Char) (l : List Char) (hc : c ≠ '/') :
    (c :: l).takeWhile (fun d => d != '/') = c :: l.takeWhile (fun d => d != '/') := by
  rw [List.takeWhile_cons, if_pos (bne_slash_of_ne c hc)]

theorem dropWhile_snoc_slash (l : List Char) :
    (l ++ ['/']).dropWhile (fun d => d != '/') = l.dropWhile (fun d => d != '/') ++ ['/'] := by
  induction l with
  | nil => decide
  | cons c l ih =>
    by_cases hc : c = '/'
    · subst hc; simp [List.dropWhile]
    · rw [List.cons_append, dropWhile_cons_ne _ _ hc, dropWhile_cons_ne _ _ hc, ih]

theorem takeWhile_snoc_slash (l : List Char) :
    (l ++ ['/']).takeWhile (fun d => d != '/') = l.takeWhile (fun d => d != '/') := by
  induction l with
  | nil => decide
  | cons c l ih =>
    by_cases hc : c = '/'
    · subst hc; simp [List.takeWhile]
    · rw [List.cons_append, takeWhile_cons_ne _ _ hc, takeWhile_cons_ne _ _ hc, ih]

theorem length_dropWhile_le (p : Char → Bool) (l : List Char) :
    (l.dropWhile p).length ≤ l.length := by
  induction l with
  | nil => simp
  | cons c l ih =>
    rw [List.dropWhile_cons]
    split
    · exact Nat.le_succ_of_le ih
    · exact le_refl _

/-- The iteration bound of `cleanLoop` is never reached: any two bounds at
least the length of the input give the same result. -/
theorem cleanLoop_fuel (rooted : Bool) :
    ∀ (n m : Nat) (rest out : List Char) (dd : Nat), rest.length ≤ n → rest.length ≤ m →
      cleanLoop rooted n rest out dd = cleanLoop rooted m rest out dd := by
  intro n
  induction n with
  | zero =>
    intro m rest out dd hn _
    have : rest = [] := List.length_eq_zero.mp (Nat.le_zero.mp hn)
    subst this
    cases m <;> simp [cleanLoop]
  | succ n ih =>
    intro m rest out dd hn hm
    cases rest with
    | nil => cases m <;> simp [cleanLoop]
    | cons c r =>
      cases m with
      | zero => simp at hm
      | succ m =>
        have hrn : r.length ≤ n := by simpa using hn
        have hrm : r.length ≤ m := by simpa using hm
        have htn : r.tail.length ≤ n := le_trans (by simp) hrn
        have htm : r.tail.length ≤ m := le_trans (by simp) hrm
        have hdn : ((c :: r).dropWhile (fun d => d != '/')).length ≤ n ∨ c = '/' := by
          by_cases hc : c = '/'
          · exact Or.inr hc
          · left
            rw [dropWhile_cons_ne _ _ hc]
            exact le_trans (length_dropWhile_le _ _) hrn
        have hdm : ((c :: r).dropWhile (fun d => d != '/')).length ≤ m ∨ c = '/' := by
          by_cases hc : c = '/'
          · exact Or.inr hc
          · left
            rw [dropWhile_cons_ne _ _ hc]
            exact le_trans (length_dropWhile_le _ _) hrm
        rw [cleanLoop, cleanLoop]
        by_cases hc : c = '/'
        · rw [if_pos hc, if_pos hc]; exact ih m r out dd hrn hrm
        · rw [if_neg hc, if_neg hc]
          have hdn' := hdn.resolve_right hc
          have hdm' := hdm.resolve_right hc
          split
          · exact ih m r out dd hrn hrm
          · split
            · split
              · exact ih m _ _ _ htn htm
              · split
                · exact ih m _ _ _ htn htm
                · exact ih m _ _ _ htn htm
            · exact ih m _ _ _ hdn' hdm'

/-- A trailing slash is an empty path element: the loop of `filepath.Clean`
gives the same buffer with and without it. -/
theorem cleanLoop_snoc_slash (rooted : Bool) :
    ∀ (n : Nat) (rest out : List Char) (dd : Nat), rest.length ≤ n →
      cleanLoop rooted (n + 1) (rest ++ ['/']) out dd = cleanLoop rooted n rest out dd := by
  intro n
  induction n with
  | zero =>
    intro rest out dd hn
    have : rest = [] := List.length_eq_zero.mp (Nat.le_zero.mp hn)
    subst this
    simp [cleanLoop]
  | succ n ih =>
    intro rest out dd hn
    cases rest with
    | nil => simp [cleanLoop]
    | cons c r =>
      have hrn : r.length ≤ n := by simpa using hn
      rw [List.cons_append, cleanLoop, cleanLoop]
      by_cases hc : c = '/'
      · rw [if_pos hc, if_pos hc]; exact ih r out dd hrn
      · rw [if_neg hc, if_neg hc, elemEnds_snoc]
        by_cases h1 : c = '.' ∧ elemEnds r = true
        · rw [if_pos h1, if_pos h1]; exact ih r out dd hrn
        · rw [if_neg h1, if_neg h1]
          have hdef : ∀ out1 : List Char,
              cleanLoop rooted (n + 1) ((c :: (r ++ ['/'])).dropWhile (fun d => d != '/'))
                (out1 ++ (c :: (r ++ ['/'])).takeWhile (fun d => d != '/')) dd =
              cleanLoop rooted n ((c :: r).dropWhile (fun d => d != '/'))
                (out1 ++ (c :: r).takeWhile (fun d => d != '/')) dd := by
            intro out1
            rw [← List.cons_append, dropWhile_snoc_slash, takeWhile_snoc_slash]
            apply ih
            rw [dropWhile_cons_ne _ _ hc]
            exact le_trans (length_dropWhile_le _ _) hrn
          cases r with
          | nil =>
            have h2 : ¬ (c = '.' ∧ ([] ++ ['/'] : List Char).head? = some '.' ∧
                elemEnds ([] ++ ['/'] : List Char).tail = true) := by
              intro h; exact absurd h.2.1 (by decide)
            have h3 : ¬ (c = '.' ∧ ([] : List Char).head? = some '.' ∧
                elemEnds ([] : List Char).tail = true) := by
              intro h; exact absurd h.2.1 (by simp)
            rw [if_neg h2, if_neg h3]
            exact hdef _
          | cons d r2 =>
            have htn : r2.length ≤ n := by
              have : r2.length + 1 ≤ n := by simpa using hrn
              omega
            rw [List.cons_append, List.head?_cons, List.head?_cons, List.tail_cons,
              List.tail_cons, elemEnds_snoc]
            by_cases h2 : c = '.' ∧ some d = some '.' ∧ elemEnds r2 = true
            · rw [if_pos h2, if_pos h2]
              split
              · exact ih _ _ _ htn
              · split
                · exact ih _ _ _ htn
                · exact ih _ _ _ htn
            · rw [if_neg h2, if_neg h2]
              exact hdef _

theorem filepathClean_append_slash (x : String) (hx : x ≠ "") :
    filepathClean (x ++ "/") = filepathClean x := by
  have hdata : x.data ≠ [] := fun h => hx (String.ext h)
  have hne : x ++ "/" ≠ "" := by
    intro h
    have := congrArg String.data h
    rw [String.data_append] at this
    exact hdata (List.append_eq_nil.mp this).1
  obtain ⟨c, r, hcr⟩ := List.exists_cons_of_ne_nil hdata
  have hs : ("/" : String).data = ['/'] := rfl
  unfold filepathClean
  rw [if_neg hne, if_neg hx]
  simp only [String.data_append, hs, hcr, List.cons_append, List.head?_cons, List.tail_cons,
    List.length_cons, List.length_append, List.length_nil]
  by_cases hroot : some c = some '/'
  · rw [if_pos hroot, if_pos hroot]
    rw [cleanLoop_snoc_slash true (r.length + 1) r ['/'] 1 (Nat.le_succ _)]
  · rw [if_neg hroot, if_neg hroot]
    rw [← List.cons_append, cleanLoop_snoc_slash false (r.length + 1) (c :: r) [] 0 (le_refl _)]

theorem uptoLastSlash_leaf (x y : List Char) (hy : '/' ∉ y) :
    uptoLastSlash (x ++ ['/'] ++ y) = x ++ ['/'] := by
  unfold uptoLastSlash
  have hdrop : ∀ (l rest : List Char), '/' ∉ l →
      (l ++ '/' :: rest).dropWhile (fun c => c != '/') = '/' :: rest := by
    intro l rest hl
    induction l with
    | nil => simp [List.dropWhile]
    | cons c l ih =>
      have hc : c ≠ '/' := fun h => hl (h ▸ List.mem_cons_self _ _)
      rw [List.cons_append, dropWhile_cons_ne _ _ hc]
      exact ih (fun h => hl (List.mem_cons_of_mem _ h))
  have hrev : (x ++ ['/'] ++ y).reverse = y.reverse ++ '/' :: x.reverse := by simp
  rw [hrev, hdrop _ _ (by simpa using hy)]
  simp

/-- The directory of a file directly under a non-empty directory path is that
path, cleaned. -/
theorem filepathDir_leaf (x y : String) (hx : x ≠ "") (hy : '/' ∉ y.data) :
    filepathDir (x ++ "/" ++ y) = filepathClean x := by
  have hs : ("/" : String).data = ['/'] := rfl
  unfold filepathDir
  rw [String.data_append, String.data_append, hs, uptoLastSlash_leaf _ _ hy,
    ← filepathClean_append_slash x hx]
  congr 1

theorem mem_sanitizeChars (l : List Char) (c : Char) (hc : c ∈ sanitizeChars l) :
    c ∈ l ∨ c = '_' := by
  simp only [sanitizeChars, List.mem_map, List.mem_filter] at hc
  obtain ⟨d, ⟨hd, _⟩, rfl⟩ := hc
  by_cases h : d = ' ' ∨ d = '\t' ∨ d = '\n'
  · rw [if_pos h]; exact Or.inr rfl
  · rw [if_neg h]; exact Or.inl hd

theorem slash_not_mem_fixPath (s : String) (h : '/' ∉ s.data) : '/' ∉ (fixPath s).data := by
  intro hmem
  rw [fixPath_data] at hmem
  cases mem_sanitizeChars _ _ hmem with
  | inl h' => exact h h'
  | inr h' => exact absurd h' (by decide)

theorem FileBinDir_ne_empty (env : Env) (t v p : String) : FileBinDir env t v p ≠ "" := by
  intro h
  have := congrArg String.data h
  rw [FileBinDir_eq, String.data_append, String.data_append] at this
  have h2 := (List.append_eq_nil.mp (List.append_eq_nil.mp this).1).2
  exact absurd h2 (by decide)

theorem PkgBinDir_ne_empty (env : Env) (t v p : String) (k : PackageType) :
    PkgBinDir env t v p k ≠ "" := by
  unfold PkgBinDir
  split
  · intro h
    have := congrArg String.data h
    rw [GeneratedBinDir, String.data_append] at this
    exact absurd (List.append_eq_nil.mp this).2 (by decide)
  · exact FileBinDir_ne_empty env t v p

/-! ## Claims about the generated tree, archives and the manifest -/

theorem fixPath_src : fixPath "/src" = "/src" := by decide

theorem fixPath_include : fixPath "/include" = "/include" := by decide

theorem fixPath_bin_sysinit : fixPath "/bin/sysinit.a" = "/bin/sysinit.a" := by decide

theorem fixPath_manifest : fixPath "/manifest.json" = "/manifest.json" := by decide

/-- C12: for every environment and target, `GeneratedBaseDir` is
`fixPath (TargetBinDir ++ "/generated")`, and sanitizing before suffixing
loses nothing: `GeneratedSrcDir`, `GeneratedIncludeDir`, `GeneratedBinDir` and
`SysinitArchivePath` are `fixPath (TargetBinDir ++ "/generated" ++ suffix)` for
the suffixes `/src`, `/include`, `/bin` and `/bin/sysinit.a`. -/
theorem generated_tree (env : Env) (t : String) :
    GeneratedBaseDir env t = fixPath (TargetBinDir env t ++ "/generated") ∧
      GeneratedSrcDir env t = fixPath (TargetBinDir env t ++ "/generated" ++ "/src") ∧
      GeneratedIncludeDir env t =
        fixPath (TargetBinDir env t ++ "/generated" ++ "/include") ∧
      GeneratedBinDir env t = fixPath (TargetBinDir env t ++ "/generated" ++ "/bin") ∧
      SysinitArchivePath env t =
        fixPath (TargetBinDir env t ++ "/generated" ++ "/bin/sysinit.a") := by
  have hbase : GeneratedBaseDir env t = fixPath (TargetBinDir env t ++ "/generated") := rfl
  refine ⟨hbase, ?_, ?_, ?_, ?_⟩
  · rw [GeneratedSrcDir, hbase, fixPath_append _ "/src", fixPath_src]
  · rw [GeneratedIncludeDir, hbase, fixPath_append _ "/include", fixPath_include]
  · rw [GeneratedBinDir, hbase, fixPath_append _ "/bin", fixPath_bin]
  · rw [SysinitArchivePath, GeneratedBinDir, hbase, fixPath_append _ "/bin/sysinit.a",
      fixPath_bin_sysinit, String.append_assoc]
    rfl

/-- C13: for every environment, target, variant, package name and kind,
`ArchivePath` is `PkgBinDir ++ "/" ++ fixPath (FilenameFromPath pkg) ++ ".a"`:
the outer sanitizer pass leaves the directory part as it is and only touches
the leaf.  So the archive lies directly inside `PkgBinDir` (its directory is
`PkgBinDir`, cleaned, when the leaf has no slash); for a generated package
that is `GeneratedBinDir`, the directory of `sysinit.a`. -/
theorem ArchivePath_in_PkgBinDir (env : Env) (t v p : String) (k : PackageType) :
    ArchivePath env t v p k =
        PkgBinDir env t v p k ++ "/" ++ fixPath (env.FilenameFromPath p) ++ ".a" ∧
      ('/' ∉ (env.FilenameFromPath p).data →
        filepathDir (ArchivePath env t v p k) = filepathClean (PkgBinDir env t v p k)) ∧
      ArchivePath env t v p env.PACKAGE_TYPE_GENERATED =
        GeneratedBinDir env t ++ "/" ++ fixPath (env.FilenameFromPath p) ++ ".a" ∧
      SysinitArchivePath env t = GeneratedBinDir env t ++ "/sysinit.a" := by
  have h : ∀ k, ArchivePath env t v p k =
      PkgBinDir env t v p k ++ "/" ++ fixPath (env.FilenameFromPath p) ++ ".a" := by
    intro k
    simp only [ArchivePath, fixPath_append, fixPath_slash, fixPath_dot_a,
      fixPath_of_isClean _ (isClean_PkgBinDir env t v p k), String.append_assoc]
  refine ⟨h k, ?_, ?_, rfl⟩
  · intro hleaf
    have hleaf' : '/' ∉ (fixPath (env.FilenameFromPath p) ++ ".a").data := by
      rw [String.data_append, List.mem_append, not_or]
      exact ⟨slash_not_mem_fixPath _ hleaf, by decide⟩
    rw [h, String.append_assoc (PkgBinDir env t v p k ++ "/"),
      filepathDir_leaf _ _ (PkgBinDir_ne_empty env t v p k) hleaf']
  · rw [h, PkgBinDir_generated]

/-- Witness of C13: the archive of the package `apps/blinky` of kind 0 for
target `boards/nrf52` and variant `app` under root `/proj`, and that of the
generated package `sysinit-app`. -/
theorem ArchivePath_in_PkgBinDir_witness :
    '/' ∉ (projEnv.FilenameFromPath "apps/blinky").data ∧
      ArchivePath projEnv "boards/nrf52" "app" "apps/blinky" 0 =
        "/proj/bin/boards/nrf52/app/apps/blinky/blinky.a" ∧
      filepathDir (ArchivePath projEnv "boards/nrf52" "app" "apps/blinky" 0) =
        filepathClean (PkgBinDir projEnv "boards/nrf52" "app" "apps/blinky" 0) ∧
      ArchivePath projEnv "boards/nrf52" "app" "sysinit-app" projEnv.PACKAGE_TYPE_GENERATED =
        GeneratedBinDir projEnv "boards/nrf52" ++ "/" ++
          fixPath (projEnv.FilenameFromPath "sysinit-app") ++ ".a" :=
  ⟨by decide, by decide,
    (ArchivePath_in_PkgBinDir projEnv "boards/nrf52" "app" "apps/blinky" 0).2.1 (by decide),
    (ArchivePath_in_PkgBinDir projEnv "boards/nrf52" "app" "sysinit-app" 0).2.2.1⟩

/-- C15: the sanitizer distributes over concatenation; consequently appending
a literal free of `@`, space, tab and newline to a sanitized path and
sanitizing again gives the plain concatenation. -/
theorem fixPath_distributes :
    (∀ a b : String, fixPath (a ++ b) = fixPath a ++ fixPath b) ∧
      (∀ p lit : String, IsClean lit → fixPath (fixPath p ++ lit) = fixPath p ++ lit) := by
  refine ⟨fixPath_append, ?_⟩
  intro p lit hlit
  rw [fixPath_append, fixPath_fixPath, fixPath_of_isClean _ hlit]

/-- Witness of C15: the strings `my pkg` and `@home dir`, and the literal
`/manifest.json` appended to the sanitized `/proj/bin/my pkg`. -/
theorem fixPath_distributes_witness :
    fixPath ("my pkg" ++ "@home dir") = fixPath "my pkg" ++ fixPath "@home dir" ∧
      IsClean "/manifest.json" ∧
      fixPath (fixPath "/proj/bin/my pkg" ++ "/manifest.json") =
        fixPath "/proj/bin/my pkg" ++ "/manifest.json" :=
  ⟨fixPath_distributes.1 "my pkg" "@home dir", by decide,
    fixPath_distributes.2 "/proj/bin/my pkg" "/manifest.json" (by decide)⟩

/-- C16: `ManifestPath` is fully sanitized without a final sanitizer pass: for
every environment, target, variant and package name it is its own image under
`fixPath`, it is `fixPath` of the raw
`BinRoot/target/variant/package/manifest.json`, and it contains none of `@`,
space, tab, newline. -/
theorem ManifestPath_sanitized (env : Env) (t v p : String) :
    ManifestPath env t v p = fixPath (ManifestPath env t v p) ∧
      fixPath (ManifestPath env t v p) =
        fixPath (BinRoot env ++ "/" ++ t ++ "/" ++ v ++ "/" ++ p ++ "/manifest.json") ∧
      IsClean (ManifestPath env t v p) := by
  have hclean : IsClean (ManifestPath env t v p) :=
    isClean_append _ _ (isClean_FileBinDir env t v p) (by decide)
  refine ⟨(fixPath_of_isClean _ hclean).symm, ?_, hclean⟩
  rw [fixPath_of_isClean _ hclean, ManifestPath, FileBinDir_eq, BinDir_eq]
  simp only [BinRoot, fixPath_append, fixPath_slash, fixPath_bin, fixPath_manifest]

theorem append_left_inj (x y s : String) : x ++ s = y ++ s ↔ x = y := by
  constructor
  · intro h
    apply String.ext
    have h' := congrArg String.data h
    rw [String.data_append, String.data_append] at h'
    exact List.append_cancel_right h'
  · intro h; rw [h]

theorem AppElfPath_eq (env : Env) (t v a : String) :
    AppElfPath env t v a =
      FileBinDir env t v a ++ "/" ++ (fixPath (filepathBase a) ++ ".elf") := by
  simp only [AppElfPath, fixPath_append, fixPath_slash, fixPath_dot_elf,
    fixPath_of_isClean _ (isClean_FileBinDir env t v a), String.append_assoc]

theorem AppImgPath_eq (env : Env) (t v a : String) :
    AppImgPath env t v a =
      FileBinDir env t v a ++ "/" ++ fixPath (filepathBase a) ++ ".img" := by
  simp only [AppImgPath, fixPath_append, fixPath_slash, fixPath_dot_img,
    fixPath_of_isClean _ (isClean_FileBinDir env t v a)]

/-! ## Claims about the methods of `Builder` -/

/-- C11: `CompileCmdsPath` does not fail on a build context with an app
package or a test package bound: it returns a path whenever one of the two is
present.  A bound app package takes precedence: the result is then computed
from `AppElfPath` alone, whether a test package is bound or not. -/
theorem CompileCmdsPath_total (env : Env) (b : Builder)
    (h : b.appPkg ≠ none ∨ b.testPkg ≠ none) :
    (∃ p, Builder.CompileCmdsPath env b = some p) ∧
      (∀ app, b.appPkg = some app →
        Builder.CompileCmdsPath env b =
          some (filepathDir (AppElfPath env b.targetPkg.FullName b.buildName app.FullName) ++
            "/compile_commands.json")) := by
  have happ : ∀ app, b.appPkg = some app →
      Builder.CompileCmdsPath env b =
        some (filepathDir (AppElfPath env b.targetPkg.FullName b.buildName app.FullName) ++
          "/compile_commands.json") := by
    intro app happ
    simp [Builder.CompileCmdsPath, Builder.AppElfPath, happ]
  refine ⟨?_, happ⟩
  cases happ' : b.appPkg with
  | some app => exact ⟨_, happ app happ'⟩
  | none =>
    cases htest : b.testPkg with
    | none => rw [happ', htest] at h; simp at h
    | some test =>
      exact ⟨_, by simp [Builder.CompileCmdsPath, Builder.TestExePath, happ', htest]; rfl⟩

/-- Witness of C11: a build context with the app `apps/blinky` bound and no
test package, and one with only the test package `libs/util` bound. -/
theorem CompileCmdsPath_total_witness :
    (blinkyBuilder.appPkg ≠ none ∨ blinkyBuilder.testPkg ≠ none) ∧
      blinkyBuilder.testPkg = none ∧
      (∃ p, Builder.CompileCmdsPath projEnv blinkyBuilder = some p) ∧
      (testBuilder.appPkg ≠ none ∨ testBuilder.testPkg ≠ none) ∧
      (∃ p, Builder.CompileCmdsPath projEnv testBuilder = some p) :=
  ⟨by decide, by decide, (CompileCmdsPath_total projEnv blinkyBuilder (by decide)).1,
    by decide, (CompileCmdsPath_total projEnv testBuilder (by decide)).1⟩

/-- C14: for every build context, `CompileCmdsPath` is the directory of
`AppElfPath()` plus `/compile_commands.json` when an app package is bound,
whether or not a test package is bound too, and the directory of
`TestExePath()` plus `/compile_commands.json` when none is; when the base name
of the app's name has no slash, it is `FileBinDir` of the app, cleaned, plus
`/compile_commands.json`. -/
theorem CompileCmdsPath_eq (env : Env) (b : Builder) :
    (b.appPkg ≠ none →
        Builder.CompileCmdsPath env b =
          (Builder.AppElfPath env b).map
            (fun p => filepathDir p ++ "/compile_commands.json")) ∧
      (b.appPkg = none →
        Builder.CompileCmdsPath env b =
          (Builder.TestExePath env b).map
            (fun p => filepathDir p ++ "/compile_commands.json")) ∧
      (∀ app, b.appPkg = some app → '/' ∉ (filepathBase app.FullName).data →
        Builder.CompileCmdsPath env b =
          some (filepathClean (FileBinDir env b.targetPkg.FullName b.buildName app.FullName) ++
            "/compile_commands.json")) := by
  refine ⟨?_, ?_, ?_⟩
  · intro happ
    unfold Builder.CompileCmdsPath
    simp only [if_pos happ, Option.map_map]
    rfl
  · intro happ
    unfold Builder.CompileCmdsPath
    simp only [happ, ne_eq, not_true_eq_false, if_false, Option.map_map]
    rfl
  · intro app happ hbase
    have hleaf : '/' ∉ (fixPath (filepathBase app.FullName) ++ ".elf").data := by
      rw [String.data_append, List.mem_append, not_or]
      exact ⟨slash_not_mem_fixPath _ hbase, by decide⟩
    simp only [Builder.CompileCmdsPath, Builder.AppElfPath, happ, ne_eq, reduceCtorEq,
      not_false_eq_true, if_true, Option.map_some']
    rw [AppElfPath_eq, filepathDir_leaf _ _ (FileBinDir_ne_empty _ _ _ _) hleaf]

/-- Witness of C14: with the app `apps/blinky` bound the path is
`/proj/bin/boards/nrf52/app/apps/blinky/compile_commands.json`, the cleaned
`FileBinDir` of the app plus the file name; with only the test package
`libs/util` bound it is in the directory of the test executable. -/
theorem CompileCmdsPath_eq_witness :
    blinkyBuilder.appPkg = some { FullName := "apps/blinky", PkgType := 0 } ∧
      '/' ∉ (filepathBase "apps/blinky").data ∧
      Builder.CompileCmdsPath projEnv blinkyBuilder =
        some (filepathClean (FileBinDir projEnv blinkyBuilder.targetPkg.FullName
          blinkyBuilder.buildName "apps/blinky") ++ "/compile_commands.json") ∧
      Builder.CompileCmdsPath projEnv blinkyBuilder =
        some "/proj/bin/boards/nrf52/app/apps/blinky/compile_commands.json" ∧
      testBuilder.appPkg = none ∧
      Builder.CompileCmdsPath projEnv testBuilder =
        (Builder.TestExePath projEnv testBuilder).map
          (fun p => filepathDir p ++ "/compile_commands.json") ∧
      Builder.CompileCmdsPath projEnv testBuilder =
        some "/proj/bin/boards/nrf52/test/libs/util/compile_commands.json" :=
  ⟨rfl, by decide,
    (CompileCmdsPath_eq projEnv blinkyBuilder).2.2
      { FullName := "apps/blinky", PkgType := 0 } rfl (by decide),
    by decide, rfl, (CompileCmdsPath_eq projEnv testBuilder).2.1 rfl, by decide⟩

/-- C17: for a build context whose app package is of a kind other than
generated, the method `AppImgPath` and the free function `AppImgPath` return
the same path exactly when the base name of the app's full name contains none
of `@`, space, tab, newline. -/
theorem AppImgPath_agree_iff (env : Env) (b : Builder) (app : BuildPackage)
    (happ : b.appPkg = some app) (hk : app.PkgType ≠ env.PACKAGE_TYPE_GENERATED) :
    Builder.AppImgPath env b =
        some (AppImgPath env b.targetPkg.FullName b.buildName app.FullName) ↔
      IsClean (filepathBase app.FullName) := by
  have hm : Builder.AppImgPath env b =
      some (FileBinDir env b.targetPkg.FullName b.buildName app.FullName ++ "/" ++
        filepathBase app.FullName ++ ".img") := by
    simp only [Builder.AppImgPath, Builder.PkgBinDir, happ, PkgBinDir_ordinary _ _ _ _ _ hk]
  rw [hm, AppImgPath_eq, Option.some.injEq, append_left_inj, append_right_inj]
  constructor
  · intro h; exact isClean_of_fixPath_eq _ h.symm
  · intro h; exact (fixPath_of_isClean _ h).symm

/-- Witness of C17: the two differ for the app `my pkg`, whose base name has a
space, and agree for `apps/blinky`. -/
theorem AppImgPath_agree_iff_witness :
    myPkgBuilder.appPkg = some { FullName := "my pkg", PkgType := 0 } ∧
      (0 : PackageType) ≠ projEnv.PACKAGE_TYPE_GENERATED ∧
      ¬ IsClean (filepathBase "my pkg") ∧
      Builder.AppImgPath projEnv myPkgBuilder ≠
        some (AppImgPath projEnv "boards/nrf52" "app" "my pkg") ∧
      Builder.AppImgPath projEnv blinkyBuilder =
        some (AppImgPath projEnv "boards/nrf52" "app" "apps/blinky") :=
  ⟨rfl, by decide, by decide,
    fun h => absurd ((AppImgPath_agree_iff projEnv myPkgBuilder
      { FullName := "my pkg", PkgType := 0 } rfl (by decide)).mp h) (by decide),
    (AppImgPath_agree_iff projEnv blinkyBuilder
      { FullName := "apps/blinky", PkgType := 0 } rfl (by decide)).mpr (by decide)⟩

end Paths
